import Mathlib

/-!
Verification of the EPIC (Equivalent-Policy Invariant Comparison) core of the
evaluating-rewards repository: the shaping-canonicalization engine, the
Pearson distance metric, and the cross-distance pairwise orchestrator.

The repository snapshot contains only the demo notebook
(examples/epic_demo.ipynb), experiment sweep scripts and CI configuration;
the Python modules `epic_sample`, `tabular` and `util` that the notebook
calls are not present.  Their behaviour is therefore modelled from the
specification (sections 4.1-4.3, 7 and 8), as noted on each definition.
-/

namespace EvalRewards

/-- Modelled from the spec: arithmetic mean of a reward vector
(used by `tabular.pearson_distance`, whose source is not in the snapshot). -/
noncomputable def mean (x : List ℝ) : ℝ := x.sum / x.length

/-- Modelled from the spec: population covariance of two sample vectors;
products are taken over the positions both vectors share. -/
noncomputable def covariance (x y : List ℝ) : ℝ :=
  (List.zipWith (fun s t => (s - mean x) * (t - mean y)) x y).sum
    / (min x.length y.length : ℝ)

/-- Modelled from the spec: population variance of a sample vector. -/
noncomputable def variance (x : List ℝ) : ℝ := covariance x x

/-- Modelled from the spec: Pearson correlation coefficient of two vectors. -/
noncomputable def correlation (x y : List ℝ) : ℝ :=
  covariance x y / (Real.sqrt (variance x) * Real.sqrt (variance y))

/-- Clipping a scalar to the unit interval. -/
noncomputable def clip01 (t : ℝ) : ℝ := min 1 (max 0 t)

/-- Modelled from the spec: the sentinel distance returned when correlation is
undefined (a zero-variance input) and the inputs are not identical constants;
the spec (section 4.2) requires a fixed, documented value, here the maximal
distance 1. -/
def sentinel : ℝ := 1

/-- Modelled from the spec: `tabular.pearson_distance` (source not in the
snapshot).  Section 4.2: `d = sqrt((1 - correlation(x, y)) / 2)`, clipped to
[0, 1]; section 7 (estimation degeneracy): when a vector has zero variance the
metric special-cases to distance 0 if both vectors are constant and equal, and
to a fixed sentinel otherwise, instead of propagating an undefined value. -/
noncomputable def pearson_distance (x y : List ℝ) : ℝ :=
  if variance x = 0 ∨ variance y = 0 then
    (if x = y then 0 else sentinel)
  else clip01 (Real.sqrt ((1 - correlation x y) / 2))

/- ## Basic lemmas about the metric -/

theorem variance_eq_sum_sq (x : List ℝ) :
    variance x = (x.map (fun s => (s - mean x) ^ 2)).sum / (x.length : ℝ) := by
  unfold variance covariance
  rw [List.zipWith_same]
  simp [sq]

theorem variance_nonneg (x : List ℝ) : 0 ≤ variance x := by
  rw [variance_eq_sum_sq]
  apply div_nonneg
  · apply List.sum_nonneg
    intro a ha
    obtain ⟨s, _, rfl⟩ := List.mem_map.mp ha
    positivity
  · positivity

theorem correlation_self (x : List ℝ) (hx : variance x ≠ 0) :
    correlation x x = 1 := by
  unfold correlation
  rw [Real.mul_self_sqrt (variance_nonneg x)]
  exact div_self hx

theorem pearson_distance_self (x : List ℝ) : pearson_distance x x = 0 := by
  unfold pearson_distance
  by_cases hx : variance x = 0
  · simp [hx]
  · rw [if_neg (by tauto), correlation_self x hx]
    norm_num [clip01]

theorem covariance_comm (x y : List ℝ) : covariance x y = covariance y x := by
  unfold covariance
  rw [List.zipWith_comm, min_comm]
  have he : (fun (t : ℝ) (s : ℝ) => (s - mean x) * (t - mean y))
      = (fun t s => (t - mean y) * (s - mean x)) := by
    funext t s
    ring
  rw [he]

theorem correlation_comm (x y : List ℝ) : correlation x y = correlation y x := by
  unfold correlation
  rw [covariance_comm, mul_comm]

theorem variance_nil : variance ([] : List ℝ) = 0 := by
  simp [variance, covariance]

theorem ne_nil_of_variance_ne_zero {x : List ℝ} (hx : variance x ≠ 0) :
    x ≠ [] := by
  intro h
  exact hx (h ▸ variance_nil)

/- ## Sum helper lemmas -/

theorem sum_zipWith_mul_left (c : ℝ) (f : ℝ → ℝ → ℝ) (x y : List ℝ) :
    (List.zipWith (fun s t => c * f s t) x y).sum
      = c * (List.zipWith f x y).sum := by
  induction x generalizing y with
  | nil => simp
  | cons s x ih =>
    cases y with
    | nil => simp
    | cons t y => simp [ih, mul_add]

theorem sum_map_affine (a b : ℝ) (x : List ℝ) :
    (x.map (fun t => a * t + b)).sum = a * x.sum + b * x.length := by
  induction x with
  | nil => simp
  | cons s x ih => simp [ih]; ring

theorem mean_affine (a b : ℝ) {x : List ℝ} (hx : x ≠ []) :
    mean (x.map (fun t => a * t + b)) = a * mean x + b := by
  have hlen : (x.length : ℝ) ≠ 0 :=
    Nat.cast_ne_zero.mpr (fun h => hx (List.length_eq_zero.mp h))
  unfold mean
  rw [List.length_map, sum_map_affine]
  field_simp

theorem covariance_affine_left (a b : ℝ) {x : List ℝ} (y : List ℝ)
    (hx : x ≠ []) :
    covariance (x.map (fun t => a * t + b)) y = a * covariance x y := by
  unfold covariance
  rw [mean_affine a b hx, List.zipWith_map_left, List.length_map]
  have he : (fun s t => (a * s + b - (a * mean x + b)) * (t - mean y))
      = (fun s t => a * ((s - mean x) * (t - mean y))) := by
    funext s t
    ring
  rw [he, sum_zipWith_mul_left, mul_div_assoc]

theorem variance_affine (a b : ℝ) {x : List ℝ} (hx : x ≠ []) :
    variance (x.map (fun t => a * t + b)) = a ^ 2 * variance x := by
  unfold variance covariance
  rw [mean_affine a b hx, List.zipWith_map_left, List.zipWith_map_right,
    List.length_map]
  have he : (fun s t => (a * s + b - (a * mean x + b))
        * (a * t + b - (a * mean x + b)))
      = (fun s t => a ^ 2 * ((s - mean x) * (t - mean x))) := by
    funext s t
    ring
  rw [he, sum_zipWith_mul_left, mul_div_assoc]

theorem correlation_affine (a b : ℝ) {x : List ℝ} (y : List ℝ)
    (ha : 0 < a) (hx : x ≠ []) :
    correlation (x.map (fun t => a * t + b)) y = correlation x y := by
  unfold correlation
  rw [covariance_affine_left a b y hx, variance_affine a b hx,
    Real.sqrt_mul (by positivity), Real.sqrt_sq ha.le, mul_assoc,
    mul_div_mul_left _ _ ha.ne.symm]

/- ## Mesh (quantization) computation mode -/

/-- Minimum entry of a sample vector (0 for the empty vector). -/
noncomputable def listMin (x : List ℝ) : ℝ :=
  match x with
  | [] => 0
  | h :: t => t.foldl min h

/-- Maximum entry of a sample vector (0 for the empty vector). -/
noncomputable def listMax (x : List ℝ) : ℝ :=
  match x with
  | [] => 0
  | h :: t => t.foldl max h

/-- Modelled from the spec: the "mesh" computation mode's deterministic
quantization rule (section 4.2): a fixed number of bins spanning the observed
min/max of the vector; every value is replaced by the index of its bin.  A
vector with zero range maps to the single bin 0. -/
noncomputable def quantize (bins : ℕ) (x : List ℝ) : List ℝ :=
  x.map (fun v =>
    if listMax x = listMin x then 0
    else (⌊(v - listMin x) / (listMax x - listMin x) * bins⌋ : ℤ))

/-- Modelled from the spec: Pearson distance in "mesh" computation mode —
both vectors are quantized before the metric is applied. -/
noncomputable def pearson_distance_mesh (bins : ℕ) (x y : List ℝ) : ℝ :=
  pearson_distance (quantize bins x) (quantize bins y)

/- ## Cross-distance / pairwise orchestrator -/

/-- Modelled from the spec: the task list of the pairwise orchestrator
(section 4.3) — one unit of work per pair in the cross product of the two
name sets, carrying the pair of names and the two input vectors. -/
def crossTasks {N V : Type*} (m1 m2 : List (N × V)) :
    List ((N × N) × (V × V)) :=
  m1.flatMap (fun p => m2.map (fun q => ((p.1, q.1), (p.2, q.2))))

/-- Modelled from the spec: round-robin share of the task list handled by
worker `w` out of `p` workers (section 5: independent side-effect-free units
of work dispatched across workers). -/
def workerShare {T : Type*} (p w : ℕ) (ts : List T) : List T :=
  (ts.enum.filter (fun e => e.1 % p == w)).map Prod.snd

/-- Modelled from the spec: results produced by all `p` workers, each worker
applying the pure distance function to its own share of the tasks; the
concatenation order is the dispatch order of the workers. -/
def gatherResults {N V D : Type*} (p : ℕ) (f : V → V → D)
    (ts : List ((N × N) × (V × V))) : List ((N × N) × D) :=
  (List.range p).flatMap
    (fun w => (workerShare p w ts).map (fun t => (t.1, f t.2.1 t.2.2)))

/-- Modelled from the spec: `util.cross_distance` (source not in the
snapshot).  Section 4.3: applies the distance function to every pair of the
cross product of the two name sets, dispatching the independent computations
over `parallelism` workers, and collects the results into a single mapping
keyed by the pair of names, in the canonical cross-product order. -/
def cross_distance {N V D : Type*} [DecidableEq N] (m1 m2 : List (N × V))
    (f : V → V → D) (parallelism : ℕ) : List ((N × N) × D) :=
  (crossTasks m1 m2).filterMap
    (fun t => ((gatherResults parallelism f (crossTasks m1 m2)).lookup t.1).map
      (fun d => (t.1, d)))

/- ## Orchestrator lemmas -/

theorem mem_gatherResults {N V D : Type*} {p : ℕ} (hp : 0 < p)
    (f : V → V → D) (ts : List ((N × N) × (V × V))) (x : (N × N) × D) :
    x ∈ gatherResults p f ts ↔ x ∈ ts.map (fun t => (t.1, f t.2.1 t.2.2)) := by
  unfold gatherResults workerShare
  simp only [List.mem_flatMap, List.mem_range, List.mem_map, List.mem_filter,
    beq_iff_eq]
  constructor
  · rintro ⟨w, _, t, ⟨e, ⟨he, _⟩, rfl⟩, rfl⟩
    have ht : e.2 ∈ ts := by
      rw [← List.enum_map_snd ts]
      exact List.mem_map.mpr ⟨e, he, rfl⟩
    exact ⟨e.2, ht, rfl⟩
  · rintro ⟨t, ht, rfl⟩
    obtain ⟨i, hi⟩ := List.mem_iff_getElem?.mp ht
    refine ⟨i % p, Nat.mod_lt i hp, t, ⟨(i, t), ⟨?_, rfl⟩, rfl⟩, rfl⟩
    exact List.mk_mem_enum_iff_getElem?.mpr hi

theorem mem_crossTasks {N V : Type*} (m1 m2 : List (N × V)) (a b : N)
    (va vb : V) :
    ((a, b), (va, vb)) ∈ crossTasks m1 m2 ↔ (a, va) ∈ m1 ∧ (b, vb) ∈ m2 := by
  unfold crossTasks
  simp only [List.mem_flatMap, List.mem_map]
  constructor
  · rintro ⟨q, hq, r, hr, heq⟩
    obtain ⟨⟨h1, h2⟩, h3, h4⟩ :
        (q.1 = a ∧ r.1 = b) ∧ q.2 = va ∧ r.2 = vb := by
      simpa [Prod.ext_iff] using heq
    constructor
    · rw [← h1, ← h3]
      exact hq
    · rw [← h2, ← h4]
      exact hr
  · rintro ⟨h1, h2⟩
    exact ⟨(a, va), h1, (b, vb), h2, rfl⟩

theorem eq_of_fst_eq_of_nodup_keys {K V : Type*} {l : List (K × V)}
    (h : (l.map Prod.fst).Nodup) {a b : K × V} (ha : a ∈ l) (hb : b ∈ l)
    (hab : a.1 = b.1) : a = b := by
  induction l with
  | nil => cases ha
  | cons e l ih =>
    rw [List.map_cons, List.nodup_cons] at h
    rcases List.mem_cons.mp ha with ha' | ha' <;>
      rcases List.mem_cons.mp hb with hb' | hb'
    · rw [ha', hb']
    · subst ha'
      exact absurd (List.mem_map.mpr ⟨b, hb', hab.symm⟩) h.1
    · subst hb'
      exact absurd (List.mem_map.mpr ⟨a, ha', hab⟩) h.1
    · exact ih h.2 ha' hb'

theorem lookup_eq_some_of_forall {K V : Type*} [BEq K] [LawfulBEq K]
    {l : List (K × V)} {k : K} {v : V} (hmem : (k, v) ∈ l)
    (huniq : ∀ v', (k, v') ∈ l → v' = v) : l.lookup k = some v := by
  induction l with
  | nil => cases hmem
  | cons e l ih =>
    obtain ⟨k', v'⟩ := e
    by_cases hk : k = k'
    · subst hk
      have hv : v' = v := huniq v' (List.mem_cons_self _ _)
      simp [List.lookup, hv]
    · have hmem' : (k, v) ∈ l := by
        rcases List.mem_cons.mp hmem with h | h
        · exact absurd (congrArg Prod.fst h) hk
        · exact h
      have huniq' : ∀ v'', (k, v'') ∈ l → v'' = v :=
        fun v'' h => huniq v'' (List.mem_cons.mpr (Or.inr h))
      have hbeq : (k == k') = false := beq_eq_false_iff_ne.mpr hk
      simpa [List.lookup, hbeq] using ih hmem' huniq'

theorem filterMap_eq_map_of_forall {T U : Type*} {ts : List T}
    {F : T → Option U} {g : T → U} (h : ∀ t ∈ ts, F t = some (g t)) :
    ts.filterMap F = ts.map g := by
  induction ts with
  | nil => rfl
  | cons t ts ih =>
    rw [List.filterMap_cons_some (h t (List.mem_cons_self _ _)),
      List.map_cons, ih (fun t' ht' => h t' (List.mem_cons.mpr (Or.inr ht')))]

theorem keys_crossTasks {N V : Type*} (m1 m2 : List (N × V)) :
    (crossTasks m1 m2).map Prod.fst
      = (m1.map Prod.fst) ×ˢ (m2.map Prod.fst) := by
  simp only [crossTasks, SProd.sprod, List.product, List.map_flatMap,
    List.flatMap_map, List.map_map]
  rfl

theorem keys_crossTasks_nodup {N V : Type*} {m1 m2 : List (N × V)}
    (h1 : (m1.map Prod.fst).Nodup) (h2 : (m2.map Prod.fst).Nodup) :
    ((crossTasks m1 m2).map Prod.fst).Nodup := by
  rw [keys_crossTasks]
  exact h1.product h2

theorem cross_distance_canonical {N V D : Type*} [DecidableEq N]
    (m1 m2 : List (N × V)) (f : V → V → D) {p : ℕ} (hp : 0 < p)
    (h1 : (m1.map Prod.fst).Nodup) (h2 : (m2.map Prod.fst).Nodup) :
    cross_distance m1 m2 f p
      = (crossTasks m1 m2).map (fun t => (t.1, f t.2.1 t.2.2)) := by
  unfold cross_distance
  apply filterMap_eq_map_of_forall
  intro t ht
  have hlook : (gatherResults p f (crossTasks m1 m2)).lookup t.1
      = some (f t.2.1 t.2.2) := by
    apply lookup_eq_some_of_forall
    · exact (mem_gatherResults hp f _ _).mpr (List.mem_map.mpr ⟨t, ht, rfl⟩)
    · intro v' hv'
      obtain ⟨t', ht', heq⟩ :=
        List.mem_map.mp ((mem_gatherResults hp f _ _).mp hv')
      injection heq with hfst hsnd
      have ht'eq : t' = t :=
        eq_of_fst_eq_of_nodup_keys (keys_crossTasks_nodup h1 h2) ht' ht hfst
      rw [← hsnd, ht'eq]
  rw [hlook]
  rfl

/- ## Shaping canonicalization engine -/

/-- Modelled from the spec: Monte Carlo estimate of the expected reward
obtainable at state `x` (section 4.1) — the mean of the reward over the
`n_mean_samples` shared action/next-state draws, the same draws being used
for every evaluated state (common-random-numbers technique). -/
def meanReward {S A : Type*} (r : S → A → S → ℚ) (acts : List A)
    (obs : List S) (x : S) : ℚ :=
  ((acts.zip obs).map (fun q => r x q.1 q.2)).sum / ((acts.zip obs).length : ℚ)

/-- Modelled from the spec: the overall mean of the estimated expected reward
over the sampled marginal state distribution, computed from the same shared
draws (section 4.1). -/
def meanRewardAll {S A : Type*} (r : S → A → S → ℚ) (acts : List A)
    (obs : List S) : ℚ :=
  (obs.map (fun s => meanReward r acts obs s)).sum / (obs.length : ℚ)

/-- Modelled from the spec: `epic_sample.sample_canon_shaping` (source not in
the snapshot).  Section 4.1: for each transition (s, a, s') of the batch, the
raw reward is adjusted by the discounted Monte Carlo estimate of the expected
reward at s', minus the estimate at s, minus the discounted overall mean —
producing one canonicalized reward per batch transition. -/
def sample_canon_shaping {S A : Type*} (r : S → A → S → ℚ)
    (batch : List (S × A × S)) (acts : List A) (obs : List S)
    (discount : ℚ) : List ℚ :=
  batch.map (fun t =>
    r t.1 t.2.1 t.2.2 + discount * meanReward r acts obs t.2.2
      - meanReward r acts obs t.1 - discount * meanRewardAll r acts obs)

/- ## Sum helpers over an arbitrary commutative ring -/

theorem sum_map_add {T R : Type*} [AddCommMonoid R] (l : List T)
    (f g : T → R) :
    (l.map (fun t => f t + g t)).sum = (l.map f).sum + (l.map g).sum := by
  induction l with
  | nil => simp
  | cons s l ih => simp [ih]; abel

theorem sum_map_mul_left_q {T : Type*} (l : List T) (c : ℚ) (f : T → ℚ) :
    (l.map (fun t => c * f t)).sum = c * (l.map f).sum := by
  induction l with
  | nil => simp
  | cons s l ih => simp [ih, mul_add]

theorem sum_map_const_q {T : Type*} (l : List T) (c : ℚ) :
    (l.map (fun _ => c)).sum = (l.length : ℚ) * c := by
  induction l with
  | nil => simp
  | cons s l ih => simp [ih]; ring

theorem sum_map_linear {T : Type*} (l : List T) (f h : T → ℚ) (g c : ℚ) :
    (l.map (fun t => f t + g * h t - c)).sum
      = (l.map f).sum + g * (l.map h).sum - (l.length : ℚ) * c := by
  induction l with
  | nil => simp
  | cons s l ih => simp [ih]; ring

theorem sum_map_linear2 {T : Type*} (l : List T) (f h : T → ℚ) (c : ℚ) :
    (l.map (fun t => f t + c - h t)).sum
      = (l.map f).sum + (l.length : ℚ) * c - (l.map h).sum := by
  induction l with
  | nil => simp
  | cons s l ih => simp [ih]; ring

theorem meanReward_shaped {S A : Type*} (r : S → A → S → ℚ) (phi : S → ℚ)
    (g : ℚ) (acts : List A) (obs : List S) (x : S)
    (hlen : acts.length = obs.length) (hobs : obs ≠ []) :
    meanReward (fun s a s' => r s a s' + g * phi s' - phi s) acts obs x
      = meanReward r acts obs x + g * ((obs.map phi).sum / (obs.length : ℚ))
        - phi x := by
  have hm : (obs.length : ℚ) ≠ 0 :=
    Nat.cast_ne_zero.mpr (fun h => hobs (List.length_eq_zero.mp h))
  have hzlen : (acts.zip obs).length = obs.length := by
    rw [List.length_zip, hlen, min_self]
  have hsnd : (acts.zip obs).map (fun q => phi q.2) = obs.map phi := by
    rw [show (fun (q : A × S) => phi q.2) = phi ∘ Prod.snd from rfl,
      ← List.map_map, List.map_snd_zip acts obs (le_of_eq hlen.symm)]
  show ((acts.zip obs).map (fun q => r x q.1 q.2 + g * phi q.2 - phi x)).sum
      / ((acts.zip obs).length : ℚ)
    = ((acts.zip obs).map (fun q => r x q.1 q.2)).sum
        / ((acts.zip obs).length : ℚ)
      + g * ((obs.map phi).sum / (obs.length : ℚ)) - phi x
  rw [sum_map_linear (acts.zip obs) (fun q => r x q.1 q.2)
    (fun q => phi q.2) g (phi x), hzlen, hsnd]
  field_simp

theorem meanRewardAll_shaped {S A : Type*} (r : S → A → S → ℚ) (phi : S → ℚ)
    (g : ℚ) (acts : List A) (obs : List S)
    (hlen : acts.length = obs.length) (hobs : obs ≠ []) :
    meanRewardAll (fun s a s' => r s a s' + g * phi s' - phi s) acts obs
      = meanRewardAll r acts obs
        + g * ((obs.map phi).sum / (obs.length : ℚ))
        - (obs.map phi).sum / (obs.length : ℚ) := by
  have hm : (obs.length : ℚ) ≠ 0 :=
    Nat.cast_ne_zero.mpr (fun h => hobs (List.length_eq_zero.mp h))
  have hpt : (fun s => meanReward
        (fun s a s' => r s a s' + g * phi s' - phi s) acts obs s)
      = (fun s => meanReward r acts obs s
          + g * ((obs.map phi).sum / (obs.length : ℚ)) - phi s) :=
    funext (fun s => meanReward_shaped r phi g acts obs s hlen hobs)
  unfold meanRewardAll
  rw [hpt, sum_map_linear2 obs (fun s => meanReward r acts obs s) phi
    (g * ((obs.map phi).sum / (obs.length : ℚ)))]
  field_simp

/-- Key algebraic fact behind the canonicalization engine: adding a
potential-shaping term `discount * phi s' - phi s` to the reward leaves every
canonicalized reward unchanged, because the shared-sample Monte Carlo
correction cancels the shaping exactly. -/
theorem sample_canon_shaping_shaped {S A : Type*} (r : S → A → S → ℚ)
    (phi : S → ℚ) (g : ℚ) (batch : List (S × A × S)) (acts : List A)
    (obs : List S) (hlen : acts.length = obs.length) (hobs : obs ≠ []) :
    sample_canon_shaping (fun s a s' => r s a s' + g * phi s' - phi s)
        batch acts obs g
      = sample_canon_shaping r batch acts obs g := by
  unfold sample_canon_shaping
  apply List.map_congr_left
  intro t _
  rw [meanReward_shaped r phi g acts obs t.2.2 hlen hobs,
    meanReward_shaped r phi g acts obs t.1 hlen hobs,
    meanRewardAll_shaped r phi g acts obs hlen hobs]
  ring

/- ## Claim theorems -/

/-- Claim C1: for every reward model `r`, every potential `phi` and the
shaped model `r'(s,a,s') = r(s,a,s') + discount * phi(s') - phi(s)`,
canonicalizing `r` and `r'` with the same transition batch and the same
sample draws (same seed) yields canonicalized vectors that are equal — hence
elementwise within any non-negative Monte Carlo tolerance. -/
theorem C1_canon_shaping_invariant {S A : Type*} (r : S → A → S → ℚ)
    (phi : S → ℚ) (g : ℚ) (batch : List (S × A × S)) (acts : List A)
    (obs : List S) (tol : ℚ) (hlen : acts.length = obs.length)
    (hobs : obs ≠ []) (htol : 0 ≤ tol) :
    sample_canon_shaping (fun s a s' => r s a s' + g * phi s' - phi s)
        batch acts obs g
      = sample_canon_shaping r batch acts obs g
    ∧ List.Forall₂ (fun u v => |u - v| ≤ tol)
        (sample_canon_shaping (fun s a s' => r s a s' + g * phi s' - phi s)
          batch acts obs g)
        (sample_canon_shaping r batch acts obs g) := by
  have h := sample_canon_shaping_shaped r phi g batch acts obs hlen hobs
  refine ⟨h, ?_⟩
  rw [h]
  exact List.forall₂_same.mpr (fun u _ => by simpa using htol)

theorem C1_witness :
    ([10, 20] : List ℚ).length = ([0, 1] : List ℚ).length
    ∧ ([0, 1] : List ℚ) ≠ []
    ∧ (0 : ℚ) ≤ 0
    ∧ (sample_canon_shaping
          (fun s a s' => (fun u v w : ℚ => u * v + w) s a s'
            + (99 / 100) * (fun u : ℚ => u ^ 2) s' - (fun u : ℚ => u ^ 2) s)
          [(1, 2, 3)] [10, 20] [0, 1] (99 / 100)
        = sample_canon_shaping (fun u v w : ℚ => u * v + w)
            [(1, 2, 3)] [10, 20] [0, 1] (99 / 100)) :=
  ⟨by decide, by decide, le_refl 0,
    (C1_canon_shaping_invariant (fun u v w : ℚ => u * v + w)
      (fun u : ℚ => u ^ 2) (99 / 100) [(1, 2, 3)] [10, 20] [0, 1] 0
      (by decide) (by decide) (le_refl 0)).1⟩

/-- Claim C2: the Pearson distance of any vector with itself is exactly 0,
and consequently every diagonal entry of the distance matrix produced by
`cross_distance` over a single name set under the Pearson metric is 0. -/
theorem C2_pearson_self_diagonal_zero :
    (∀ x : List ℝ, pearson_distance x x = 0)
    ∧ ∀ m : List (String × List ℝ), (m.map Prod.fst).Nodup →
        ∀ e ∈ cross_distance m m pearson_distance 1,
          e.1.1 = e.1.2 → e.2 = 0 := by
  refine ⟨pearson_distance_self, ?_⟩
  intro m hm e he hdiag
  rw [cross_distance_canonical m m pearson_distance one_pos hm hm] at he
  obtain ⟨t, ht, rfl⟩ := List.mem_map.mp he
  obtain ⟨⟨a, b⟩, va, vb⟩ := t
  simp only at hdiag
  subst hdiag
  obtain ⟨hma, hmb⟩ := (mem_crossTasks m m a a va vb).mp ht
  have hv : (a, va) = (a, vb) :=
    eq_of_fst_eq_of_nodup_keys hm hma hmb rfl
  injection hv with _ hvv
  subst hvv
  exact pearson_distance_self va

theorem C2_witness :
    (List.map Prod.fst [("a", ([0, 1] : List ℝ))]).Nodup
    ∧ pearson_distance [0, 1] [0, 1] = 0
    ∧ (((("a", "a"), pearson_distance [0, 1] [0, 1])
        : (String × String) × ℝ)).2 = 0 := by
  have hmem : (((("a", "a"), pearson_distance [0, 1] [0, 1])
        : (String × String) × ℝ))
      ∈ cross_distance [("a", ([0, 1] : List ℝ))] [("a", [0, 1])]
          pearson_distance 1 := by
    rw [show cross_distance [("a", ([0, 1] : List ℝ))] [("a", [0, 1])]
        pearson_distance 1
      = [(("a", "a"), pearson_distance [0, 1] [0, 1])] from rfl]
    exact List.mem_singleton.mpr rfl
  exact ⟨by decide, C2_pearson_self_diagonal_zero.1 [0, 1],
    C2_pearson_self_diagonal_zero.2 [("a", [0, 1])] (by decide) _ hmem rfl⟩

/-- Claim C3: on every pair of vectors on which the Pearson distance is
defined (both variances non-zero), the distance equals
`sqrt((1 - correlation(x, y)) / 2)` clipped to [0, 1]; in particular it is a
non-negative scalar no greater than 1. -/
theorem C3_pearson_formula_and_range (x y : List ℝ)
    (hx : variance x ≠ 0) (hy : variance y ≠ 0) :
    pearson_distance x y = clip01 (Real.sqrt ((1 - correlation x y) / 2))
    ∧ 0 ≤ pearson_distance x y ∧ pearson_distance x y ≤ 1 := by
  have hform : pearson_distance x y
      = clip01 (Real.sqrt ((1 - correlation x y) / 2)) := by
    unfold pearson_distance
    rw [if_neg (by tauto)]
  refine ⟨hform, ?_, ?_⟩ <;> rw [hform] <;> unfold clip01
  · exact le_min zero_le_one (le_max_left 0 _)
  · exact min_le_left 1 _

theorem C3_witness :
    variance ([0, 1] : List ℝ) ≠ 0
    ∧ variance ([0, 2] : List ℝ) ≠ 0
    ∧ (pearson_distance [0, 1] [0, 2]
        = clip01 (Real.sqrt ((1 - correlation [0, 1] [0, 2]) / 2))
      ∧ 0 ≤ pearson_distance [0, 1] [0, 2]
      ∧ pearson_distance [0, 1] [0, 2] ≤ 1) :=
  ⟨by norm_num [variance, covariance, mean, List.zipWith],
    by norm_num [variance, covariance, mean, List.zipWith],
    C3_pearson_formula_and_range [0, 1] [0, 2]
      (by norm_num [variance, covariance, mean, List.zipWith])
      (by norm_num [variance, covariance, mean, List.zipWith])⟩

/-- Claim C4: on every pair of vectors on which the Pearson distance is
defined, replacing `x` by `a*x + b` with `a > 0` leaves the distance
unchanged (invariance under positive affine transforms). -/
theorem C4_pearson_affine_invariant (x y : List ℝ) (a b : ℝ) (ha : 0 < a)
    (hx : variance x ≠ 0) (hy : variance y ≠ 0) :
    pearson_distance (x.map (fun t => a * t + b)) y = pearson_distance x y := by
  have hxn := ne_nil_of_variance_ne_zero hx
  have hcond : ¬ (variance (x.map (fun t => a * t + b)) = 0
      ∨ variance y = 0) := by
    rw [variance_affine a b hxn]
    push_neg
    exact ⟨mul_ne_zero (pow_ne_zero 2 ha.ne.symm) hx, hy⟩
  unfold pearson_distance
  rw [if_neg hcond, if_neg (by tauto), correlation_affine a b y ha hxn]

theorem C4_witness :
    (0 : ℝ) < 2
    ∧ variance ([0, 1] : List ℝ) ≠ 0
    ∧ variance ([0, 2] : List ℝ) ≠ 0
    ∧ pearson_distance (([0, 1] : List ℝ).map (fun t => 2 * t + 3)) [0, 2]
        = pearson_distance [0, 1] [0, 2] :=
  ⟨by norm_num, by norm_num [variance, covariance, mean, List.zipWith],
    by norm_num [variance, covariance, mean, List.zipWith],
    C4_pearson_affine_invariant [0, 1] [0, 2] 2 3 (by norm_num)
      (by norm_num [variance, covariance, mean, List.zipWith])
      (by norm_num [variance, covariance, mean, List.zipWith])⟩

/-- Claim C5: the Pearson distance is symmetric in its two arguments. -/
theorem C5_pearson_symmetric (x y : List ℝ) :
    pearson_distance x y = pearson_distance y x := by
  unfold pearson_distance
  rw [correlation_comm]
  by_cases h : variance x = 0 ∨ variance y = 0
  · rw [if_pos h, if_pos h.symm]
    by_cases hxy : x = y
    · rw [if_pos hxy, if_pos hxy.symm]
    · rw [if_neg hxy, if_neg (fun h' => hxy h'.symm)]
  · rw [if_neg h, if_neg (fun h' => h h'.symm)]

/-- Claim C7: a zero-variance input never yields an undefined result: the
Pearson metric returns 0 when the two vectors are equal constants, the fixed
deterministic sentinel otherwise, and comparing any vector against itself in
"mesh" mode returns exactly 0 (same output on every call of the pure
function). -/
theorem C7_zero_variance_fallback :
    (∀ x y : List ℝ, (variance x = 0 ∨ variance y = 0) → x = y →
        pearson_distance x y = 0)
    ∧ (∀ x y : List ℝ, (variance x = 0 ∨ variance y = 0) → x ≠ y →
        pearson_distance x y = sentinel)
    ∧ ∀ (bins : ℕ) (x : List ℝ), pearson_distance_mesh bins x x = 0 := by
  refine ⟨?_, ?_, ?_⟩
  · intro x y h hxy
    unfold pearson_distance
    rw [if_pos h, if_pos hxy]
  · intro x y h hxy
    unfold pearson_distance
    rw [if_pos h, if_neg hxy]
  · intro bins x
    exact pearson_distance_self (quantize bins x)

theorem C7_witness :
    variance ([1, 1] : List ℝ) = 0
    ∧ pearson_distance [1, 1] [1, 1] = 0
    ∧ ([1, 1] : List ℝ) ≠ [1, 2]
    ∧ pearson_distance [1, 1] [1, 2] = sentinel
    ∧ pearson_distance_mesh 10 [5, 5] [5, 5] = 0 := by
  have h0 : variance ([1, 1] : List ℝ) = 0 := by
    norm_num [variance, covariance, mean, List.zipWith]
  have hne : ([1, 1] : List ℝ) ≠ [1, 2] := by norm_num
  exact ⟨h0, C7_zero_variance_fallback.1 [1, 1] [1, 1] (Or.inl h0) rfl, hne,
    C7_zero_variance_fallback.2.1 [1, 1] [1, 2] (Or.inl h0) hne,
    C7_zero_variance_fallback.2.2 10 [5, 5]⟩

/-- Claim C8: for any two name-to-vector mappings and any distance function,
the key set of the mapping returned by `cross_distance` is exactly the cross
product of the two name sets. -/
theorem C8_cross_distance_keys {N V D : Type*} [DecidableEq N]
    (m1 m2 : List (N × V)) (f : V → V → D)
    (h1 : (m1.map Prod.fst).Nodup) (h2 : (m2.map Prod.fst).Nodup)
    (a : N) (b : N) :
    (a, b) ∈ (cross_distance m1 m2 f 1).map Prod.fst
      ↔ a ∈ m1.map Prod.fst ∧ b ∈ m2.map Prod.fst := by
  rw [cross_distance_canonical m1 m2 f one_pos h1 h2, List.map_map]
  have hc : (Prod.fst ∘ fun t : (N × N) × (V × V) => (t.1, f t.2.1 t.2.2))
      = Prod.fst := rfl
  rw [hc, keys_crossTasks]
  exact List.mem_product

theorem C8_witness :
    (List.map Prod.fst [("a", (1 : ℚ)), ("b", 2)]).Nodup
    ∧ (("a", "b")
        ∈ (cross_distance [("a", (1 : ℚ)), ("b", 2)] [("a", (1 : ℚ)), ("b", 2)]
            (fun u v => u + v) 1).map Prod.fst
      ↔ "a" ∈ List.map Prod.fst [("a", (1 : ℚ)), ("b", 2)]
        ∧ "b" ∈ List.map Prod.fst [("a", (1 : ℚ)), ("b", 2)]) :=
  ⟨by decide,
    C8_cross_distance_keys [("a", (1 : ℚ)), ("b", 2)] [("a", 1), ("b", 2)]
      (fun u v => u + v) (by decide) (by decide) "a" "b"⟩

/-- Claim C9: the cross-distance orchestrator run with parallelism 1 and with
parallelism 4 on the same inputs produces identical output mappings. -/
theorem C9_parallelism_deterministic {N V D : Type*} [DecidableEq N]
    (m1 m2 : List (N × V)) (f : V → V → D)
    (h1 : (m1.map Prod.fst).Nodup) (h2 : (m2.map Prod.fst).Nodup) :
    cross_distance m1 m2 f 1 = cross_distance m1 m2 f 4 := by
  rw [cross_distance_canonical m1 m2 f one_pos h1 h2,
    cross_distance_canonical m1 m2 f (by norm_num) h1 h2]

theorem C9_witness :
    (List.map Prod.fst [("a", (1 : ℚ)), ("b", 2)]).Nodup
    ∧ cross_distance [("a", (1 : ℚ)), ("b", 2)] [("a", (1 : ℚ)), ("b", 2)]
        (fun u v => u - v) 1
      = cross_distance [("a", (1 : ℚ)), ("b", 2)] [("a", 1), ("b", 2)]
        (fun u v => u - v) 4 :=
  ⟨by decide,
    C9_parallelism_deterministic [("a", (1 : ℚ)), ("b", 2)] [("a", 1), ("b", 2)]
      (fun u v => u - v) (by decide) (by decide)⟩

/-- Claim C10: the value of `cross_distance m m f` at each ordered pair
`(a, b)` — diagonal pairs and both orders included — is the evaluation of `f`
at the vectors stored under `a` and `b`; no diagonal entry is hardcoded to
zero and no symmetry-based shortcut replaces an evaluation. -/
theorem C10_cross_distance_pointwise {N V D : Type*} [DecidableEq N]
    (m : List (N × V)) (f : V → V → D) (h : (m.map Prod.fst).Nodup)
    (a b : N) (va vb : V) (hma : (a, va) ∈ m) (hmb : (b, vb) ∈ m) :
    (cross_distance m m f 1).lookup (a, b) = some (f va vb) := by
  rw [cross_distance_canonical m m f one_pos h h]
  apply lookup_eq_some_of_forall
  · exact List.mem_map.mpr
      ⟨((a, b), (va, vb)), (mem_crossTasks m m a b va vb).mpr ⟨hma, hmb⟩, rfl⟩
  · intro v' hv'
    obtain ⟨t, ht, heq⟩ := List.mem_map.mp hv'
    obtain ⟨⟨a', b'⟩, va', vb'⟩ := t
    injection heq with hfst hsnd
    injection hfst with ha' hb'
    obtain ⟨hma', hmb'⟩ := (mem_crossTasks m m a' b' va' vb').mp ht
    rw [ha'] at hma'
    rw [hb'] at hmb'
    have hva : (a, va') = (a, va) :=
      eq_of_fst_eq_of_nodup_keys h hma' hma rfl
    have hvb : (b, vb') = (b, vb) :=
      eq_of_fst_eq_of_nodup_keys h hmb' hmb rfl
    injection hva with _ hva'
    injection hvb with _ hvb'
    rw [← hsnd, hva', hvb']

theorem C10_witness :
    (List.map Prod.fst [("a", (1 : ℚ)), ("b", 2)]).Nodup
    ∧ (cross_distance [("a", (1 : ℚ)), ("b", 2)] [("a", 1), ("b", 2)]
        (fun u v => u - v) 1).lookup ("a", "b") = some (-1)
    ∧ (cross_distance [("a", (1 : ℚ)), ("b", 2)] [("a", 1), ("b", 2)]
        (fun u v => u - v) 1).lookup ("b", "a") = some 1
    ∧ (cross_distance [("a", (1 : ℚ)), ("b", 2)] [("a", 1), ("b", 2)]
        (fun u v => u - v) 1).lookup ("a", "a") = some 0 := by
  have hmem1 : (("a", (1 : ℚ))) ∈ [("a", (1 : ℚ)), ("b", 2)] := by simp
  have hmem2 : (("b", (2 : ℚ))) ∈ [("a", (1 : ℚ)), ("b", 2)] := by simp
  refine ⟨by decide, ?_, ?_, ?_⟩
  · have := C10_cross_distance_pointwise [("a", (1 : ℚ)), ("b", 2)]
      (fun u v => u - v) (by decide) "a" "b" 1 2 hmem1 hmem2
    norm_num at this
    exact this
  · have := C10_cross_distance_pointwise [("a", (1 : ℚ)), ("b", 2)]
      (fun u v => u - v) (by decide) "b" "a" 2 1 hmem2 hmem1
    norm_num at this
    exact this
  · have := C10_cross_distance_pointwise [("a", (1 : ℚ)), ("b", 2)]
      (fun u v => u - v) (by decide) "a" "a" 1 1 hmem1 hmem1
    simpa using this

end EvalRewards
